import Mathlib

/-!
# Verification of the bustub copy-on-write trie (`src/primer/trie.cpp`)

This file gives a shallow embedding of the persistent trie implemented in
`src/primer/trie.cpp` and proves or refutes the specification claims about it.

Modelling choices, each traced to the source:

* A C++ `TrieNode` owns `children_ : std::map<char, std::shared_ptr<const TrieNode>>`;
  a `TrieNodeWithValue<T>` additionally owns a value of type `T`.  We model a
  node as an inductive with an association list of children (`std::map` has
  unique keys; `find`/`operator[]`-style update is `findChild`/`setChild`) and
  an optional tagged value: `value = some ⟨ty, val⟩` plays the role of the node
  being a `TrieNodeWithValue<T>` where the tag `ty` stands for the C++ type `T`
  and `val` for the stored value.  `dynamic_cast<const TrieNodeWithValue<T>*>`
  succeeding corresponds exactly to the tag matching the requested one.
* `Clone()` (virtual) copies a node one level: children mapping and, for a
  value node, the value.  In the functional model a clone is the node itself.
* A `Trie` holds `root_ : std::shared_ptr<const TrieNode>`, possibly null:
  `root : Option TrieNode`.
* Keys are `List Char`.

A second, heap-based embedding (addresses as `Nat`, an explicit store) appears
further below; it captures the pointer structure and is used for the
persistence claim, which is about the original snapshot being untouched by the
destructive-looking `const_pointer_cast` writes in `Put`.
-/

/-- A stored value: `ty` is the (erased) C++ type of a `TrieNodeWithValue<T>`,
`val` the payload.  `Get<T>` succeeds only when the tag matches. -/
structure TValue where
  ty : Nat
  val : Nat
deriving DecidableEq, Repr

/-- A trie node: `children` models `TrieNode::children_`
(a `std::map<char, shared_ptr<const TrieNode>>`, so an association list with
unique keys), `value` is `some` exactly when the node is a
`TrieNodeWithValue<T>` (trie.cpp node hierarchy). -/
inductive TrieNode where
  | mk (children : List (Char × TrieNode)) (value : Option TValue)

/-- Projection for the `children_` field. -/
def TrieNode.children : TrieNode → List (Char × TrieNode)
  | .mk cs _ => cs

/-- Projection for the value of a `TrieNodeWithValue`. -/
def TrieNode.value : TrieNode → Option TValue
  | .mk _ v => v

@[simp] theorem TrieNode.children_mk (cs : List (Char × TrieNode)) (v : Option TValue) :
    (TrieNode.mk cs v).children = cs := rfl

@[simp] theorem TrieNode.value_mk (cs : List (Char × TrieNode)) (v : Option TValue) :
    (TrieNode.mk cs v).value = v := rfl

/-- `children_.find(ch)`: first entry whose key is `c`. -/
def findChild : List (Char × TrieNode) → Char → Option TrieNode
  | [], _ => none
  | (c', n) :: rest, c => if c = c' then some n else findChild rest c

/-- `it->second = cur` when `find` succeeded, `children_.insert({ch, cur})`
otherwise: update the entry for `c` in place, or append a fresh one. -/
def setChild : List (Char × TrieNode) → Char → TrieNode → List (Char × TrieNode)
  | [], c, n => [(c, n)]
  | (c', n') :: rest, c, n =>
      if c = c' then (c, n) :: rest else (c', n') :: setChild rest c n

/-- The `Trie` handle: `root_`, possibly null. -/
structure Trie where
  root : Option TrieNode

/-- `Trie()`: the empty trie (null root). -/
def Trie.empty : Trie := ⟨none⟩

/-- `Trie::GetTrieNode` (trie.cpp lines 23–32): walk the key from the root;
a null node or a missing child aborts the walk with null. -/
def getNode : Option TrieNode → List Char → Option TrieNode
  | none, _ => none
  | some n, [] => some n
  | some n, c :: rest => getNode (findChild n.children c) rest

/-- The value carried by an optional node (`none` when the walk failed or the
node is a plain `TrieNode`). -/
def valueOf : Option TrieNode → Option TValue
  | some n => n.value
  | none => none

/-- The `dynamic_cast<const TrieNodeWithValue<T>*>` step of `Trie::Get`:
the stored value is produced only when its type tag is the requested one. -/
def extractT (ty : Nat) : Option TValue → Option Nat
  | some tv => if tv.ty = ty then some tv.val else none
  | none => none

/-- `Trie::Get<T>` (trie.cpp lines 7–21): `GetTrieNode`, then the checked
downcast; any failure yields null. -/
def Trie.Get (t : Trie) (ty : Nat) (key : List Char) : Option Nat :=
  extractT ty (valueOf (getNode t.root key))

/-- Modelled from the spec: `TrieNode::Clone` and
`TrieNodeWithValue<T>::Clone` are declared in `trie.h`, which is outside this
repository slice.  Per the spec a clone copies a node one level — the
children mapping, "preserving its own children so far", and (per the
`Put("a",1).Put("ab",2).Remove("ab")` example, which keeps `Get("a") == 1`
through a clone of the `"a"` node) a value node keeps its value.  In the
functional model that one-level copy is the node itself. -/
@[reducible] def cloneNode (n : TrieNode) : TrieNode := n

/-- The loop of `Trie::Put` (trie.cpp lines 52–70), run from the node `cur`
that the already-cloned prefix ends at.  At the final symbol a fresh
`TrieNodeWithValue<T>` with no children is attached; at an inner symbol the
existing child is cloned (a clone keeps children and value) or a fresh empty
node is created, and the loop continues inside it.  Attaching is `setChild`. -/
def putRec (node : TrieNode) (ks : List Char) (tv : TValue) : TrieNode :=
  match ks with
  | [] => node
  | c :: rest =>
      let child :=
        if rest.isEmpty then TrieNode.mk [] (some tv)
        else
          match findChild node.children c with
          | some ch => putRec (cloneNode ch) rest tv
          | none => putRec (TrieNode.mk [] none) rest tv
      TrieNode.mk (setChild node.children c child) node.value

/-- `Trie::Put<T>` (trie.cpp lines 34–73): empty key returns `Trie(root_)`;
otherwise the root is cloned (or a fresh empty node is used when the trie is
empty) and the loop runs along the key. -/
def Trie.Put (t : Trie) (key : List Char) (tv : TValue) : Trie :=
  if key.isEmpty then ⟨t.root⟩
  else
    let base :=
      match t.root with
      | some r => cloneNode r
      | none => TrieNode.mk [] none
    ⟨some (putRec base key tv)⟩

/-- The loop of `Trie::Remove` (trie.cpp lines 82–99), run from the cloned
node the prefix ends at.  At an inner symbol the child is cloned and
reattached; at the final symbol a plain `TrieNode` carrying the old child's
children (value wiped) is built and attached only when it still has children —
when it has none, the code attaches nothing, so the cloned parent keeps its
old entry (the `find` branch is guarded by `GetTrieNode`, so the `none` arms
are unreachable from `Trie.Remove`). -/
def removeRec (node : TrieNode) (ks : List Char) : TrieNode :=
  match ks with
  | [] => node
  | c :: rest =>
      match findChild node.children c with
      | none => node
      | some child =>
          if rest.isEmpty then
            if child.children.isEmpty then node
            else TrieNode.mk (setChild node.children c (TrieNode.mk child.children none))
              node.value
          else TrieNode.mk (setChild node.children c (removeRec (cloneNode child) rest))
            node.value

/-- `Trie::Remove` (trie.cpp lines 75–102): no-op fast path for an empty key,
a null root or a key whose path does not exist; otherwise the root is cloned
and the loop runs along the key. -/
def Trie.Remove (t : Trie) (key : List Char) : Trie :=
  if key.isEmpty || t.root.isNone || (getNode t.root key).isNone then ⟨t.root⟩
  else
    match t.root with
    | none => ⟨t.root⟩
    | some r => ⟨some (removeRec (cloneNode r) key)⟩

/-! ## Association-list lemmas -/

theorem findChild_setChild_self (l : List (Char × TrieNode)) (c : Char) (n : TrieNode) :
    findChild (setChild l c n) c = some n := by
  induction l with
  | nil => simp [setChild, findChild]
  | cons p rest ih =>
      by_cases h : c = p.1 <;> simp [setChild, findChild, h, ih]

theorem findChild_setChild_ne (l : List (Char × TrieNode)) (c c' : Char) (n : TrieNode)
    (h : c' ≠ c) : findChild (setChild l c n) c' = findChild l c' := by
  induction l with
  | nil => simp [setChild, findChild, h]
  | cons p rest ih =>
      by_cases hc : c = p.1
      · subst hc
        simp [setChild, findChild, h, ih]
      · by_cases hc' : c' = p.1 <;> simp [setChild, findChild, hc, hc', ih]

theorem setChild_setChild (l : List (Char × TrieNode)) (c : Char) (n m : TrieNode) :
    setChild (setChild l c n) c m = setChild l c m := by
  induction l with
  | nil => simp [setChild]
  | cons p rest ih =>
      by_cases h : c = p.1 <;> simp [setChild, h, ih]

theorem getNode_append (xs ys : List Char) (o : Option TrieNode) :
    getNode o (xs ++ ys) = getNode (getNode o xs) ys := by
  induction xs generalizing o with
  | nil =>
      cases o <;> simp [getNode]
  | cons c rest ih =>
      cases o with
      | none => simp [getNode]
      | some n => simp [getNode, ih]

theorem getNode_none (ks : List Char) : getNode none ks = none := by
  cases ks <;> simp [getNode]

theorem putRec_value (node : TrieNode) (ks : List Char) (tv : TValue) :
    (putRec node ks tv).value = node.value := by
  cases ks <;> simp [putRec, TrieNode.value]

theorem getNode_cons (n : TrieNode) (c : Char) (rest : List Char) :
    getNode (some n) (c :: rest) = getNode (findChild n.children c) rest := rfl

theorem putRec_last (node : TrieNode) (c : Char) (tv : TValue) :
    putRec node [c] tv =
      TrieNode.mk (setChild node.children c (TrieNode.mk [] (some tv))) node.value := rfl

theorem putRec_inner (node : TrieNode) (c c' : Char) (r' : List Char) (tv : TValue) :
    putRec node (c :: c' :: r') tv =
      TrieNode.mk (setChild node.children c
        (match findChild node.children c with
          | some ch => putRec ch (c' :: r') tv
          | none => putRec (TrieNode.mk [] none) (c' :: r') tv)) node.value := rfl

theorem getNode_putRec (ks : List Char) (node : TrieNode) (tv : TValue) (h : ks ≠ []) :
    getNode (some (putRec node ks tv)) ks = some (TrieNode.mk [] (some tv)) := by
  induction ks generalizing node with
  | nil => exact absurd rfl h
  | cons c rest ih =>
      cases rest with
      | nil =>
          rw [putRec_last, getNode_cons]
          simp [findChild_setChild_self, getNode]
      | cons c' r' =>
          rw [putRec_inner, getNode_cons]
          simp only [TrieNode.children_mk, findChild_setChild_self]
          cases hf : findChild node.children c with
          | some ch =>
              simp only [hf]
              exact ih ch (by simp)
          | none =>
              simp only [hf]
              exact ih _ (by simp)

/-! ## Claim theorems (functional model) -/

/-- C3: round-trip — for every trie `t`, non-empty key `k` and value `v` of
type `T` (tag `ty`), `t.Put(k, v).Get<T>(k)` returns the stored value `v`. -/
theorem put_get_roundtrip (t : Trie) (k : List Char) (ty v : Nat) (h : k ≠ []) :
    (t.Put k ⟨ty, v⟩).Get ty k = some v := by
  obtain ⟨c, rest, rfl⟩ : ∃ c rest, k = c :: rest := by
    cases k with
    | nil => exact absurd rfl h
    | cons c rest => exact ⟨c, rest, rfl⟩
  unfold Trie.Put Trie.Get
  simp only [List.isEmpty_cons, Bool.false_eq_true, if_false]
  rw [getNode_putRec _ _ _ (by simp)]
  simp [valueOf, extractT]

/-- Witness for `put_get_roundtrip` at a concrete input. -/
theorem put_get_roundtrip_witness :
    (['a', 'b'] : List Char) ≠ [] ∧
      (Trie.empty.Put ['a', 'b'] ⟨0, 5⟩).Get 0 ['a', 'b'] = some 5 :=
  ⟨by decide, put_get_roundtrip Trie.empty ['a', 'b'] 0 5 (by decide)⟩

/-- C6: empty-key `Put` is a no-op — `t.Put("", v)` returns a trie sharing
the same root unchanged, hence observably unchanged, and no value becomes
retrievable at the empty key. -/
theorem put_empty_key_noop (t : Trie) (tv : TValue) :
    t.Put [] tv = t ∧ ∀ (ty : Nat) (k' : List Char), (t.Put [] tv).Get ty k' = t.Get ty k' :=
  ⟨rfl, fun _ _ => rfl⟩

/-- C5: `Get<T>` returns the stored value exactly when the whole key path
exists (`getNode` succeeds), the final node bears a value, and the value's
type tag matches the requested one; in every other case it returns `none`. -/
theorem get_characterization (t : Trie) (ty : Nat) (k : List Char) :
    ∀ v : Nat, t.Get ty k = some v ↔
      ∃ n, getNode t.root k = some n ∧ n.value = some ⟨ty, v⟩ := by
  intro v
  unfold Trie.Get
  cases hg : getNode t.root k with
  | none => simp [valueOf, extractT]
  | some n =>
      cases hv : n.value with
      | none => simp [valueOf, extractT, hv]
      | some tv =>
          obtain ⟨tty, tval⟩ := tv
          by_cases ht : tty = ty
          · subst ht
            simp [valueOf, extractT, hv]
          · simp [valueOf, extractT, hv, ht]

/-- C1 (refuting evaluation): the code keeps a removed leaf value.  Removing
the key `"a"` right after inserting it at a fresh trie leaves the value
retrievable, because `Remove` never erases the parent's entry when the
replacement node would be childless. -/
theorem remove_leaf_keeps_value :
    ((Trie.empty.Put ['a'] ⟨0, 1⟩).Remove ['a']).Get 0 ['a'] = some 1 := by rfl

/-- C2 (refuting evaluation): no pruning happens. After `Put("ab", 1)` then
`Remove("ab")` the node for prefix `"a"` is still reachable, and the value at
`"ab"` even survives, since the stale child entry is kept. -/
theorem remove_no_pruning :
    (getNode ((Trie.empty.Put ['a', 'b'] ⟨0, 1⟩).Remove ['a', 'b']).root ['a']).isSome = true ∧
      ((Trie.empty.Put ['a', 'b'] ⟨0, 1⟩).Remove ['a', 'b']).Get 0 ['a', 'b'] = some 1 :=
  ⟨rfl, rfl⟩

/-- C7 (counterexample to "exactly"): a `Remove` whose key path exists (none
of the three no-op conditions holds) can still return a trie structurally
equal to the receiver — here the key `"a"` has no stored value but its path
exists, so the rebuilt trie has exactly the original's structure. -/
theorem remove_noop_not_exactly :
    ((['a'] : List Char) ≠ []) ∧
      (Trie.empty.Put ['a', 'b'] ⟨0, 1⟩).root.isSome = true ∧
      (getNode (Trie.empty.Put ['a', 'b'] ⟨0, 1⟩).root ['a']).isSome = true ∧
      (Trie.empty.Put ['a', 'b'] ⟨0, 1⟩).Remove ['a'] = Trie.empty.Put ['a', 'b'] ⟨0, 1⟩ := by
  exact ⟨by decide, rfl, rfl, rfl⟩

/-- C7 (amended): `Remove` returns a trie structurally equal to the receiver
whenever the key is empty, the trie is empty, or the key's full path does not
exist ("exactly" dropped: the converse fails, see the counterexample). -/
theorem remove_noop_cases (t : Trie) (k : List Char)
    (h : k = [] ∨ t.root = none ∨ getNode t.root k = none) :
    t.Remove k = t := by
  have hcond : (k.isEmpty || t.root.isNone || (getNode t.root k).isNone) = true := by
    rcases h with h | h | h <;> simp [h]
  unfold Trie.Remove
  rw [if_pos hcond]

/-- Witness for `remove_noop_cases`: removing from the empty trie. -/
theorem remove_noop_cases_witness :
    (Trie.empty.root = none) ∧ Trie.empty.Remove ['a'] = Trie.empty :=
  ⟨rfl, remove_noop_cases Trie.empty ['a'] (Or.inr (Or.inl rfl))⟩

/-- C8: `Put` at a key `k` that has descendants replaces the node at `k` by a
fresh value-only node with no children, so every stored key properly
extending `k` stops being retrievable. -/
theorem put_drops_descendants (t : Trie) (k s : List Char) (tv : TValue) (ty w : Nat)
    (hk : k ≠ []) (hs : s ≠ []) (hstored : t.Get ty (k ++ s) = some w) :
    (t.Put k tv).Get ty (k ++ s) = none := by
  obtain ⟨c, rest, rfl⟩ : ∃ c rest, k = c :: rest := by
    cases k with
    | nil => exact absurd rfl hk
    | cons c rest => exact ⟨c, rest, rfl⟩
  obtain ⟨c', rest', rfl⟩ : ∃ c' rest', s = c' :: rest' := by
    cases s with
    | nil => exact absurd rfl hs
    | cons c' rest' => exact ⟨c', rest', rfl⟩
  unfold Trie.Put Trie.Get
  simp only [List.isEmpty_cons, Bool.false_eq_true, if_false]
  rw [getNode_append, getNode_putRec _ _ _ (by simp), getNode_cons]
  simp [findChild, getNode_none, valueOf, extractT]

/-- Witness for `put_drops_descendants` at a concrete input: the key `"ab"`
stored under the prefix `"a"` disappears once `"a"` is overwritten. -/
theorem put_drops_descendants_witness :
    ((['a'] : List Char) ≠ []) ∧ ((['b'] : List Char) ≠ []) ∧
      (Trie.empty.Put ['a', 'b'] ⟨0, 5⟩).Get 0 (['a'] ++ ['b']) = some 5 ∧
      ((Trie.empty.Put ['a', 'b'] ⟨0, 5⟩).Put ['a'] ⟨0, 9⟩).Get 0 (['a'] ++ ['b']) = none :=
  ⟨by decide, by decide, by rfl,
    put_drops_descendants (Trie.empty.Put ['a', 'b'] ⟨0, 5⟩) ['a'] ['b'] ⟨0, 9⟩ 0 5
      (by decide) (by decide) (by rfl)⟩

/-! ## Remove idempotence -/

theorem removeRec_last (node : TrieNode) (c : Char) :
    removeRec node [c] =
      match findChild node.children c with
      | none => node
      | some child =>
          if child.children.isEmpty then node
          else TrieNode.mk (setChild node.children c (TrieNode.mk child.children none))
            node.value := rfl

theorem removeRec_inner (node : TrieNode) (c c' : Char) (r' : List Char) :
    removeRec node (c :: c' :: r') =
      match findChild node.children c with
      | none => node
      | some child =>
          TrieNode.mk (setChild node.children c (removeRec child (c' :: r'))) node.value := rfl

/-- After one pass of the `Remove` loop the key's path still exists, and a
second pass rebuilds exactly the same node. -/
theorem removeRec_stable (rest : List Char) (c : Char) (r : TrieNode)
    (h : (getNode (some r) (c :: rest)).isSome = true) :
    (getNode (some (removeRec r (c :: rest))) (c :: rest)).isSome = true ∧
      removeRec (removeRec r (c :: rest)) (c :: rest) = removeRec r (c :: rest) := by
  induction rest generalizing c r with
  | nil =>
      rw [getNode_cons] at h
      cases hf : findChild r.children c with
      | none => rw [hf] at h; simp [getNode] at h
      | some child =>
          by_cases hc : child.children.isEmpty
          · have hr : removeRec r [c] = r := by
              rw [removeRec_last, hf]
              simp [hc]
            refine ⟨?_, ?_⟩
            · rw [hr, getNode_cons, hf]
              simp [getNode]
            · rw [hr]
              exact hr
          · have hrw : removeRec r [c] =
                TrieNode.mk (setChild r.children c (TrieNode.mk child.children none))
                  r.value := by
              rw [removeRec_last, hf]
              simp [hc]
            refine ⟨?_, ?_⟩
            · rw [hrw, getNode_cons]
              simp [findChild_setChild_self, getNode]
            · rw [hrw, removeRec_last]
              simp only [TrieNode.children_mk, TrieNode.value_mk, findChild_setChild_self]
              simp [hc, setChild_setChild]
  | cons c' r' ih =>
      rw [getNode_cons] at h
      cases hf : findChild r.children c with
      | none => rw [hf] at h; simp [getNode_none] at h
      | some child =>
          rw [hf] at h
          obtain ⟨g1, e1⟩ := ih c' child h
          have hrw : removeRec r (c :: c' :: r') =
              TrieNode.mk (setChild r.children c (removeRec child (c' :: r'))) r.value := by
            rw [removeRec_inner, hf]
          refine ⟨?_, ?_⟩
          · rw [hrw, getNode_cons]
            simp only [TrieNode.children_mk, findChild_setChild_self]
            exact g1
          · rw [hrw, removeRec_inner]
            simp only [TrieNode.children_mk, TrieNode.value_mk, findChild_setChild_self]
            rw [e1, setChild_setChild]

/-- C9: `Remove` is idempotent — removing the same key twice yields a trie
structurally equal to removing it once. -/
theorem remove_idempotent (t : Trie) (k : List Char) :
    (t.Remove k).Remove k = t.Remove k := by
  by_cases hg : (k.isEmpty || t.root.isNone || (getNode t.root k).isNone) = true
  · have h1 : t.Remove k = t := by
      unfold Trie.Remove
      rw [if_pos hg]
    rw [h1, h1]
  · obtain ⟨r, hroot⟩ : ∃ r, t.root = some r := by
      cases hrt : t.root with
      | none => exact absurd (by rw [hrt]; simp) hg
      | some r => exact ⟨r, rfl⟩
    obtain ⟨c, rest, rfl⟩ : ∃ c rest, k = c :: rest := by
      cases k with
      | nil => exact absurd (by rfl) hg
      | cons c rest => exact ⟨c, rest, rfl⟩
    have hsome : (getNode (some r) (c :: rest)).isSome = true := by
      cases hgn : getNode (some r) (c :: rest) with
      | none => exact absurd (by rw [hroot, hgn]; simp) hg
      | some n => rfl
    obtain ⟨g1, e1⟩ := removeRec_stable rest c r hsome
    have h1 : t.Remove (c :: rest) = ⟨some (removeRec r (c :: rest))⟩ := by
      unfold Trie.Remove
      rw [if_neg hg, hroot]
    have hg2 : ¬(((c :: rest).isEmpty || (some (removeRec r (c :: rest))).isNone ||
        (getNode (some (removeRec r (c :: rest))) (c :: rest)).isNone) = true) := by
      cases hgn : getNode (some (removeRec r (c :: rest))) (c :: rest) with
      | none => rw [hgn] at g1; simp at g1
      | some n => simp
    have h2 : (Trie.mk (some (removeRec r (c :: rest)))).Remove (c :: rest) =
        ⟨some (removeRec (removeRec r (c :: rest)) (c :: rest))⟩ := by
      unfold Trie.Remove
      rw [if_neg hg2]
    rw [h1, h2, e1]

/-! ## Frame property of Put -/

/-- `Put` along `ks` leaves the observable value at every key `ks'` that is
not `ks` and not properly extended from `ks` untouched (node level). -/
theorem putRec_frame (ks' ks : List Char) (node : TrieNode) (tv : TValue)
    (hk : ks ≠ []) (hne : ∀ s, ks' ≠ ks ++ s) :
    valueOf (getNode (some (putRec node ks tv)) ks') =
      valueOf (getNode (some node) ks') := by
  induction ks' generalizing ks node with
  | nil =>
      simp [getNode, valueOf, putRec_value]
  | cons c rest ih =>
      obtain ⟨k0, krest, rfl⟩ : ∃ k0 krest, ks = k0 :: krest := by
        cases ks with
        | nil => exact absurd rfl hk
        | cons k0 krest => exact ⟨k0, krest, rfl⟩
      by_cases hc : c = k0
      · subst hc
        cases krest with
        | nil => exact absurd rfl (hne rest)
        | cons k1 ktail =>
            have hne' : ∀ s, rest ≠ (k1 :: ktail) ++ s := by
              intro s hs
              exact hne s (by rw [hs]; rfl)
            rw [putRec_inner, getNode_cons, getNode_cons]
            simp only [TrieNode.children_mk, findChild_setChild_self]
            cases hf : findChild node.children c with
            | some ch =>
                simp only [hf]
                exact ih (k1 :: ktail) ch (by simp) hne'
            | none =>
                simp only [hf]
                rw [ih (k1 :: ktail) (TrieNode.mk [] none) (by simp) hne']
                cases rest with
                | nil => simp [getNode, valueOf, getNode_none]
                | cons c2 r2 => simp [getNode, findChild, valueOf, getNode_none]
      · cases krest with
        | nil =>
            rw [putRec_last, getNode_cons, getNode_cons]
            simp only [TrieNode.children_mk]
            rw [findChild_setChild_ne _ _ _ _ hc]
        | cons k1 ktail =>
            rw [putRec_inner, getNode_cons, getNode_cons]
            simp only [TrieNode.children_mk]
            rw [findChild_setChild_ne _ _ _ _ hc]

/-- C10: frame of `Put` — for every key `k'` that is neither `k` itself nor a
proper extension of `k` (no suffix `s` with `k' = k ++ s`), `Put(k, v)` does
not change the result of `Get` at `k'`; in particular values stored at proper
prefixes of `k` survive. -/
theorem put_frame (t : Trie) (k k' : List Char) (tv : TValue) (ty : Nat)
    (hk : k ≠ []) (hne : ∀ s, k' ≠ k ++ s) :
    (t.Put k tv).Get ty k' = t.Get ty k' := by
  obtain ⟨c, rest, rfl⟩ : ∃ c rest, k = c :: rest := by
    cases k with
    | nil => exact absurd rfl hk
    | cons c rest => exact ⟨c, rest, rfl⟩
  unfold Trie.Put Trie.Get
  simp only [List.isEmpty_cons, Bool.false_eq_true, if_false]
  cases hr : t.root with
  | some r =>
      rw [putRec_frame k' (c :: rest) r tv (by simp) hne]
  | none =>
      rw [putRec_frame k' (c :: rest) (TrieNode.mk [] none) tv (by simp) hne]
      cases k' with
      | nil => simp [getNode, valueOf]
      | cons c2 r2 => simp [getNode, findChild, valueOf, getNode_none]

/-- Witness for `put_frame`: a value stored at the proper prefix `"a"`
survives a `Put` at `"ab"`. -/
theorem put_frame_witness :
    ((['a', 'b'] : List Char) ≠ []) ∧ (∀ s : List Char, ['a'] ≠ ['a', 'b'] ++ s) ∧
      ((Trie.empty.Put ['a'] ⟨0, 7⟩).Put ['a', 'b'] ⟨0, 9⟩).Get 0 ['a'] =
        (Trie.empty.Put ['a'] ⟨0, 7⟩).Get 0 ['a'] ∧
      (Trie.empty.Put ['a'] ⟨0, 7⟩).Get 0 ['a'] = some 7 :=
  ⟨by decide, fun s hs => by simp at hs,
    put_frame (Trie.empty.Put ['a'] ⟨0, 7⟩) ['a', 'b'] ['a'] ⟨0, 9⟩ 0 (by decide)
      (fun s hs => by simp at hs), by rfl⟩

/-!
## Heap-based embedding for the persistence claim

`Put` in trie.cpp builds the new version with `const_pointer_cast` writes on
nodes reached through shared pointers; persistence of the original snapshot
holds only because every written node is freshly allocated inside the call.
To capture that, this second embedding makes the pointer structure explicit:
nodes live in a store addressed by `Nat`, children map symbols to addresses,
and `Put` is translated write for write.  The persistence theorem then states
that running `Put` leaves the observable behaviour of the *original* root in
the *new* store unchanged.
-/

/-- A stored node: children map symbols to addresses of child nodes
(`shared_ptr` targets), `value` as in the functional model. -/
structure HNode where
  children : List (Char × Nat)
  value : Option TValue
deriving DecidableEq, Repr

/-- The store: an association list from addresses to nodes, plus the next
fresh address.  Allocation appends at `next`. -/
structure Heap where
  mem : List (Nat × HNode)
  next : Nat
deriving DecidableEq, Repr

/-- `children_.find(ch)` on an address map. -/
def findA : List (Char × Nat) → Char → Option Nat
  | [], _ => none
  | (c', a) :: rest, c => if c = c' then some a else findA rest c

/-- Update-or-insert on an address map (`it->second = cur` / `insert`). -/
def setA : List (Char × Nat) → Char → Nat → List (Char × Nat)
  | [], c, a => [(c, a)]
  | (c', a') :: rest, c, a =>
      if c = c' then (c, a) :: rest else (c', a') :: setA rest c a

/-- Dereference an address in the store. -/
def hfind : List (Nat × HNode) → Nat → Option HNode
  | [], _ => none
  | (b, n) :: rest, a => if a = b then some n else hfind rest a

/-- Overwrite the node at an (existing) address. -/
def setMem : List (Nat × HNode) → Nat → HNode → List (Nat × HNode)
  | [], a, n => [(a, n)]
  | (b, m) :: rest, a, n =>
      if a = b then (a, n) :: rest else (b, m) :: setMem rest a n

def Heap.find (h : Heap) (a : Nat) : Option HNode := hfind h.mem a

def Heap.set (h : Heap) (a : Nat) (n : HNode) : Heap := ⟨setMem h.mem a n, h.next⟩

/-- Dereference, with a default for the (unreachable) dangling case. -/
def nodeAt (h : Heap) (a : Nat) : HNode := (h.find a).getD ⟨[], none⟩

/-- The node built for `cur` in one iteration of the `Put` loop: a fresh
value node at the final symbol, otherwise a clone of the existing child or a
fresh empty node. -/
def putCnode (h : Heap) (prev : Nat) (c : Char) (rest : List Char) (tv : TValue) : HNode :=
  if rest.isEmpty then ⟨[], some tv⟩
  else
    match findA (nodeAt h prev).children c with
    | some a => nodeAt h a
    | none => ⟨[], none⟩

/-- The loop of `Trie::Put` on the explicit store: allocate `cur` at the
fresh address, rewire the parent's entry for the symbol to it (a write to
`prev`, which this call allocated itself), and continue inside `cur`. -/
def putH : Heap → Nat → List Char → TValue → Heap
  | h, _, [], _ => h
  | h, prev, c :: rest, tv =>
      putH (Heap.set ⟨(h.next, putCnode h prev c rest tv) :: h.mem, h.next + 1⟩ prev
        ⟨setA (nodeAt h prev).children c h.next, (nodeAt h prev).value⟩) h.next rest tv

/-- The root clone at the start of `Trie::Put`: `root_->Clone()`, or a fresh
empty node when the trie is empty. -/
def rootClone (h : Heap) (root : Option Nat) : HNode :=
  match root with
  | some r => nodeAt h r
  | none => ⟨[], none⟩

/-- `Trie::Put` on the explicit store: returns the new store and the new
root address (the original root address stays valid and untouched). -/
def trieHPut (h : Heap) (root : Option Nat) (key : List Char) (tv : TValue) :
    Heap × Option Nat :=
  if key.isEmpty then (h, root)
  else (putH ⟨(h.next, rootClone h root) :: h.mem, h.next + 1⟩ h.next key tv, some h.next)

/-- `Trie::GetTrieNode` on the store: walk the key, dereferencing one
address per symbol. -/
def getNodeH (h : Heap) : Option Nat → List Char → Option HNode
  | none, _ => none
  | some a, [] => h.find a
  | some a, c :: rest =>
      match h.find a with
      | none => none
      | some n => getNodeH h (findA n.children c) rest

/-- Value of an optional store node. -/
def hvalueOf : Option HNode → Option TValue
  | some n => n.value
  | none => none

/-- `Trie::Get<T>` on the store: walk, then the checked downcast. -/
def getH (h : Heap) (root : Option Nat) (ty : Nat) (key : List Char) : Option Nat :=
  extractT ty (hvalueOf (getNodeH h root key))

/-- Store well-formedness: every child address mentioned anywhere is below
`next` (freshness of `next`, as holds for any reachable C++ state). -/
def heapWFb (h : Heap) : Bool :=
  h.mem.all fun p => p.2.children.all fun q => decide (q.2 < h.next)

/-- The root address (when present) is below `next`. -/
def addrOkB (o : Option Nat) (n : Nat) : Bool :=
  match o with
  | some r => decide (r < n)
  | none => true

/-! ### Frame lemmas for the store -/

theorem hfind_setMem_ne (l : List (Nat × HNode)) (a b : Nat) (n : HNode) (h : a ≠ b) :
    hfind (setMem l b n) a = hfind l a := by
  induction l with
  | nil => simp [setMem, hfind, h]
  | cons p rest ih =>
      by_cases hb : b = p.1
      · subst hb
        simp [setMem, hfind, h, ih]
      · by_cases hab : a = p.1 <;> simp [setMem, hfind, hb, hab, ih]

theorem hfind_mem (l : List (Nat × HNode)) (a : Nat) (n : HNode) (h : hfind l a = some n) :
    (a, n) ∈ l := by
  induction l with
  | nil => simp [hfind] at h
  | cons p rest ih =>
      by_cases hab : a = p.1
      · subst hab
        rw [hfind] at h
        simp at h
        simp [← h]
      · rw [hfind] at h
        simp [hab] at h
        exact List.mem_cons_of_mem _ (ih h)

theorem findA_mem (l : List (Char × Nat)) (c : Char) (b : Nat) (h : findA l c = some b) :
    (c, b) ∈ l := by
  induction l with
  | nil => simp [findA] at h
  | cons p rest ih =>
      by_cases hc : c = p.1
      · subst hc
        rw [findA] at h
        simp at h
        simp [← h]
      · rw [findA] at h
        simp [hc] at h
        exact List.mem_cons_of_mem _ (ih h)

theorem putH_cons (h : Heap) (prev : Nat) (c : Char) (rest : List Char) (tv : TValue) :
    putH h prev (c :: rest) tv =
      putH (Heap.set ⟨(h.next, putCnode h prev c rest tv) :: h.mem, h.next + 1⟩ prev
        ⟨setA (nodeAt h prev).children c h.next, (nodeAt h prev).value⟩) h.next rest tv := rfl

/-- All writes of the `Put` loop target addresses allocated by the call
itself, so any older address keeps its node. -/
theorem putH_frame (ks : List Char) (a : Nat) (tv : TValue) :
    ∀ (h : Heap) (prev : Nat), a < h.next → a ≠ prev →
      (putH h prev ks tv).find a = h.find a := by
  induction ks with
  | nil =>
      intro h prev _ _
      rfl
  | cons c rest ih =>
      intro h prev ha hp
      rw [putH_cons]
      rw [ih _ h.next (Nat.lt_succ_of_lt ha) (Nat.ne_of_lt ha)]
      show hfind (setMem ((h.next, _) :: h.mem) prev _) a = hfind h.mem a
      rw [hfind_setMem_ne _ _ _ _ hp]
      simp [hfind, Nat.ne_of_lt ha]

theorem heapWFb_children (h : Heap) (hwf : heapWFb h = true) (r : Nat) (n : HNode)
    (hr : h.find r = some n) (c : Char) (b : Nat) (hb : findA n.children c = some b) :
    b < h.next := by
  have hmem : (r, n) ∈ h.mem := hfind_mem _ _ _ hr
  have h1 := List.all_eq_true.mp hwf _ hmem
  have hbmem : (c, b) ∈ n.children := findA_mem _ _ _ hb
  have h2 := List.all_eq_true.mp h1 _ hbmem
  simpa using h2

theorem getNodeH_cons (h : Heap) (a : Nat) (c : Char) (rest : List Char) :
    getNodeH h (some a) (c :: rest) =
      match h.find a with
      | none => none
      | some n => getNodeH h (findA n.children c) rest := rfl

/-- A store extension that preserves all addresses below `next` preserves
every walk that starts at a valid address of a well-formed store. -/
theorem getNodeH_frame (ks : List Char) (h h' : Heap)
    (hframe : ∀ a, a < h.next → h'.find a = h.find a)
    (hwf : heapWFb h = true) :
    ∀ o : Option Nat, addrOkB o h.next = true → getNodeH h' o ks = getNodeH h o ks := by
  induction ks with
  | nil =>
      intro o ho
      cases o with
      | none => rfl
      | some a =>
          have ha : a < h.next := by simpa [addrOkB] using ho
          exact hframe a ha
  | cons c rest ih =>
      intro o ho
      cases o with
      | none => rfl
      | some a =>
          have ha : a < h.next := by simpa [addrOkB] using ho
          rw [getNodeH_cons, getNodeH_cons, hframe a ha]
          cases hn : h.find a with
          | none => rfl
          | some n =>
              apply ih
              cases hb : findA n.children c with
              | none => rfl
              | some b =>
                  simp only [addrOkB, decide_eq_true_eq]
                  exact heapWFb_children h hwf a n hn c b hb

/-- C4: persistence — after `Put` builds a new version in the store, the
original snapshot (its old root address) observes exactly what it observed
before, for every key and requested type. -/
theorem put_persistence (h : Heap) (root : Option Nat) (k : List Char) (tv : TValue)
    (ty : Nat) (k' : List Char)
    (hwf : heapWFb h = true) (hroot : addrOkB root h.next = true) :
    getH (trieHPut h root k tv).1 root ty k' = getH h root ty k' := by
  by_cases hk : k.isEmpty
  · unfold trieHPut
    rw [if_pos hk]
  · unfold trieHPut
    rw [if_neg hk]
    unfold getH
    have hframe : ∀ a, a < h.next →
        (putH ⟨(h.next, rootClone h root) :: h.mem, h.next + 1⟩ h.next k tv).find a =
          h.find a := by
      intro a ha
      rw [putH_frame k a tv _ h.next (Nat.lt_succ_of_lt ha) (Nat.ne_of_lt ha)]
      show hfind ((h.next, _) :: h.mem) a = hfind h.mem a
      simp [hfind, Nat.ne_of_lt ha]
    rw [getNodeH_frame k' h _ hframe hwf root hroot]

/-- Witness for `put_persistence`: a one-node store holding `7` at the root;
a `Put` of key `"a"` leaves the old snapshot's observation intact. -/
theorem put_persistence_witness :
    heapWFb ⟨[(0, ⟨[], some ⟨0, 7⟩⟩)], 1⟩ = true ∧
      addrOkB (some 0) (Heap.mk [(0, ⟨[], some ⟨0, 7⟩⟩)] 1).next = true ∧
      getH (trieHPut ⟨[(0, ⟨[], some ⟨0, 7⟩⟩)], 1⟩ (some 0) ['a'] ⟨1, 9⟩).1 (some 0) 0 [] =
        getH ⟨[(0, ⟨[], some ⟨0, 7⟩⟩)], 1⟩ (some 0) 0 [] ∧
      getH ⟨[(0, ⟨[], some ⟨0, 7⟩⟩)], 1⟩ (some 0) 0 [] = some 7 :=
  ⟨by decide, by decide,
    put_persistence ⟨[(0, ⟨[], some ⟨0, 7⟩⟩)], 1⟩ (some 0) ['a'] ⟨1, 9⟩ 0 []
      (by decide) (by decide), by rfl⟩
